import Mathlib

/-!
Shallow embedding of the go-micro connection pool
(`src/util/pool/default.go`) and proofs about its Get/Release/Close
operations.  Time is modelled by natural-number instants, errors by
`Option String` (`none` = nil).  The goneric stack and the transport
collaborator are outside `src/`; they are modelled from the spec where
noted.
-/

/-- Modelled from the spec: the raw transport connection established by the
dialer collaborator (go-micro `transport.Client`, outside src/).  It exposes
a remote address and a Close whose outcome we record as an optional error. -/
structure Client where
  remote : String
  closeErr : Option String
deriving DecidableEq, Repr

/-- Connection record of the pool (source: `poolConn`): wraps a transport
client with an identifier and a creation timestamp. -/
structure poolConn where
  client : Client
  id : String
  created : Nat
deriving DecidableEq, Repr

/-- Remote address of the wrapped client (promoted `transport.Client` method). -/
def poolConn.Remote (c : poolConn) : String := c.client.remote

/-- Identifier accessor (source: `(p *poolConn) Id`). -/
def poolConn.Id (c : poolConn) : String := c.id

/-- Creation-time accessor (source: `(p *poolConn) Created`). -/
def poolConn.Created (c : poolConn) : Nat := c.created

/-- The no-op external Close (source: `(p *poolConn) Close` returns nil). -/
def poolConn.Close (_ : poolConn) : Option String := none

/-- Closing the underlying transport client yields its recorded outcome. -/
def Client.Close (c : Client) : Option String := c.closeErr

/-- Modelled from the spec: an address bucket is an ordered LIFO sequence of
connection records (head = top of the goneric stack, whose code is outside
src/); a bucket value read from the map is an independent snapshot that
persists only when explicitly written back (spec section 5). -/
abbrev Bucket := List poolConn

/-- Push onto the top of a bucket (stack `Push`). -/
def Bucket.push (b : Bucket) (c : poolConn) : Bucket := c :: b

/-- The address-to-bucket map (source: `conns map[string]stack.Stack`). -/
abbrev ConnMap := List (String × Bucket)

/-- Map lookup (source: `p.conns[addr]`). -/
def connsLookup : ConnMap → String → Option Bucket
  | [], _ => none
  | (k, v) :: rest, a => if k = a then some v else connsLookup rest a

/-- Map write-back (source: `p.conns[addr] = conns`). -/
def connsStore : ConnMap → String → Bucket → ConnMap
  | [], a, b => [(a, b)]
  | (k, v) :: rest, a, b =>
    if k = a then (a, b) :: rest else (k, v) :: connsStore rest a b

/-- The pool (source: `struct pool`): per-address capacity, TTL, map. -/
structure pool where
  size : Nat
  ttl : Nat
  conns : ConnMap
deriving DecidableEq, Repr

/-- The empty pool produced by `newPool`. -/
def newPool (size ttl : Nat) : pool := ⟨size, ttl, []⟩

/-- Bucket for an address; an absent entry reads as an empty bucket
(source: `if !ok { conns = stack.New() }`). -/
def bucketOf (p : pool) (a : String) : Bucket := (connsLookup p.conns a).getD []

/-- Outcome of Get: the returned connection or error, the pool state after
the call, and the underlying-client Close invocations made during it. -/
inductive GetRes where
  | ok (c : poolConn) (st : pool) (closed : List poolConn)
  | err (e : String) (st : pool) (closed : List poolConn)
deriving DecidableEq, Repr

/-- Pool state recorded in a Get outcome. -/
def GetRes.state : GetRes → pool
  | .ok _ st _ => st
  | .err _ st _ => st

/-- The scan loop of Get (source lines 79-121), fuel-indexed because the
defensive mismatch branch pushes the popped record back onto the top of the
stack and continues, rescanning the identical stack.  `none` means the fuel
ran out before the loop exited.  When the snapshot is exhausted the dial
happens and the shrunk snapshot is not written back (the source has no map
write on the dial path). -/
def getLoop (p : pool) (addr : String) (now : Nat) (dial : Except String Client)
    (newId : String) : Nat → Bucket → List poolConn → Option GetRes
  | 0, _, _ => none
  | fuel + 1, conns, closed =>
    match conns with
    | [] =>
      match dial with
      | .error e => some (.err e p closed)
      | .ok rc => some (.ok ⟨rc, newId, now⟩ p closed)
    | conn :: rest =>
      if conn.Remote = addr then
        if now - conn.Created > p.ttl then
          match conn.client.Close with
          | some e =>
            some (.err e { p with conns := connsStore p.conns addr rest } (closed ++ [conn]))
          | none => getLoop p addr now dial newId fuel rest (closed ++ [conn])
        else
          some (.ok conn { p with conns := connsStore p.conns addr rest } closed)
      else
        getLoop p addr now dial newId fuel (Bucket.push rest conn) closed

/-- Get (source: `(p *pool) Get`).  `now` is the current instant, `dial` the
transport's response for this call, `newId` the uuid a fresh dial would get,
`fuel` the number of loop iterations allowed. -/
def pool.Get (p : pool) (addr : String) (now : Nat) (dial : Except String Client)
    (newId : String) (fuel : Nat) : Option GetRes :=
  getLoop p addr now dial newId fuel (bucketOf p addr) []

/-- A value of the `Conn` interface handed to Release: either a `poolConn`
issued by this pool, or a foreign implementation (the type-switch default). -/
inductive Conn where
  | pc (c : poolConn)
  | foreign (remote : String)
deriving DecidableEq, Repr

/-- Release (source: `(p *pool) Release`): returns the error, the pool state
after the call, and the underlying-client Close invocations made. -/
def pool.Release (p : pool) (conn : Conn) (callErr : Option String) :
    Option String × pool × List poolConn :=
  match conn with
  | .foreign _ => (some "unknown connection type", p, [])
  | .pc c =>
    let conns := bucketOf p c.Remote
    match callErr with
    | some _ => (c.client.Close, p, [c])
    | none =>
      if conns.length ≥ p.size then
        (c.client.Close, p, [c])
      else
        (none, { p with conns := connsStore p.conns c.Remote (Bucket.push conns c) }, [])

/-- Drain one bucket snapshot top-down, keeping the most recent close
failure (source: the inner Pop loop of Close). -/
def drainBucket : Bucket → Option String → Option String × List poolConn
  | [], e => (e, [])
  | c :: rest, e =>
    let e2 := match c.client.Close with
      | some ne => some ne
      | none => e
    let r := drainBucket rest e2
    (r.1, c :: r.2)

/-- Drain every bucket in map order (source: the range loop of Close). -/
def drainAll : ConnMap → Option String → Option String × List poolConn
  | [], e => (e, [])
  | (_, b) :: rest, e =>
    let r := drainBucket b e
    let r2 := drainAll rest r.1
    (r2.1, r.2 ++ r2.2)

/-- Close (source lines 38-54).  Modelled from the spec: the range iteration
pops an independent snapshot of each bucket (spec section 5), and the source
never writes the drained snapshots back, so the map is returned unchanged. -/
def pool.Close (p : pool) : Option String × pool × List poolConn :=
  let r := drainAll p.conns none
  (r.1, p, r.2)

/-- All records currently pooled, in drain order. -/
def allPooled (p : pool) : List poolConn := (p.conns.map Prod.snd).flatten

/-- One step of the last-error-wins accumulation used while draining. -/
def closeStep (acc : Option String) (c : poolConn) : Option String :=
  match c.client.closeErr with
  | some e => some e
  | none => acc

/-- The most recent close failure across a list of close invocations. -/
def lastCloseFailure (cs : List poolConn) : Option String :=
  cs.foldl closeStep none

/-- Termination of a Get call: some finite fuel makes the scan loop exit. -/
def GetTerminates (p : pool) (addr : String) (now : Nat) (dial : Except String Client)
    (newId : String) : Prop :=
  ∃ fuel, (pool.Get p addr now dial newId fuel).isSome

/-- Per-address bucketing invariant: every record filed under an address has
that address as its remote. -/
def BucketInv (p : pool) : Prop :=
  ∀ a b, connsLookup p.conns a = some b → ∀ c ∈ b, c.Remote = a

/-- Pool states reachable by sequential executions from a fresh pool. -/
inductive Reachable : pool → Prop where
  | init (size ttl : Nat) : Reachable (newPool size ttl)
  | get (p : pool) (addr : String) (now : Nat) (dial : Except String Client)
      (newId : String) (fuel : Nat) (r : GetRes) : Reachable p →
      pool.Get p addr now dial newId fuel = some r → Reachable r.state
  | release (p : pool) (conn : Conn) (e : Option String) : Reachable p →
      Reachable (pool.Release p conn e).2.1
  | close (p : pool) : Reachable p → Reachable (pool.Close p).2.1

/-- The scan loop with the defensive remote-address mismatch branch removed;
used to state that the branch is dead code on invariant-satisfying pools. -/
def getLoopNM (p : pool) (addr : String) (now : Nat) (dial : Except String Client)
    (newId : String) : Nat → Bucket → List poolConn → Option GetRes
  | 0, _, _ => none
  | fuel + 1, conns, closed =>
    match conns with
    | [] =>
      match dial with
      | .error e => some (.err e p closed)
      | .ok rc => some (.ok ⟨rc, newId, now⟩ p closed)
    | conn :: rest =>
      if now - conn.Created > p.ttl then
        match conn.client.Close with
        | some e =>
          some (.err e { p with conns := connsStore p.conns addr rest } (closed ++ [conn]))
        | none => getLoopNM p addr now dial newId fuel rest (closed ++ [conn])
      else
        some (.ok conn { p with conns := connsStore p.conns addr rest } closed)

/-- Get with the mismatch branch removed. -/
def pool.GetNM (p : pool) (addr : String) (now : Nat) (dial : Except String Client)
    (newId : String) (fuel : Nat) : Option GetRes :=
  getLoopNM p addr now dial newId fuel (bucketOf p addr) []

/-- Error-free Releases of a sequence of connections, in order, accumulating
the Close invocations. -/
def releaseAll (p : pool) (cs : List poolConn) : pool × List poolConn :=
  match cs with
  | [] => (p, [])
  | c :: rest =>
    let r := pool.Release p (Conn.pc c) none
    let r2 := releaseAll r.2.1 rest
    (r2.1, r.2.2 ++ r2.2)

/-- Close invocations recorded in a Get outcome. -/
def GetRes.events : GetRes → List poolConn
  | .ok _ _ ev => ev
  | .err _ _ ev => ev

/-! ### Concrete values used by witnesses and counterexamples -/

def c1Client : Client := ⟨"a", none⟩

def c1Conn : poolConn := ⟨c1Client, "id1", 5⟩

def c1Pool : pool := ⟨2, 10, [("a", [c1Conn])]⟩

def c2A : poolConn := ⟨⟨"a", none⟩, "A", 0⟩

def c2B : poolConn := ⟨⟨"a", none⟩, "B", 0⟩

def c3rc : Client := ⟨"a", none⟩

def c3c : poolConn := ⟨c3rc, "x", 3⟩

def c4good : poolConn := ⟨⟨"a", none⟩, "live", 0⟩

def c4dead : poolConn := ⟨⟨"a", some "x"⟩, "dead", 0⟩

def c4p : pool := ⟨1, 5, [("a", [c4good])]⟩

def c5mis : poolConn := ⟨⟨"b", none⟩, "m", 0⟩

def c5p : pool := ⟨1, 10, [("a", [c5mis])]⟩

def c6c : poolConn := ⟨⟨"a", none⟩, "c", 0⟩

def c6p : pool := ⟨1, 10, [("a", [c6c])]⟩

def c8old : poolConn := ⟨⟨"a", none⟩, "old", 0⟩

def c8p : pool := ⟨1, 10, [("a", [c8old])]⟩

def c8bad : poolConn := ⟨⟨"a", some "closefail"⟩, "bad", 0⟩

def c8q : pool := ⟨1, 10, [("a", [c8bad])]⟩

def c5good : poolConn := ⟨⟨"a", none⟩, "g", 0⟩

def c5q : pool := ⟨1, 10, [("a", [c5good])]⟩

def c9c : poolConn := ⟨⟨"a", none⟩, "r", 0⟩

def c10c : poolConn := ⟨⟨"a", none⟩, "kept", 0⟩

def c10p : pool := ⟨1, 100, [("a", [c10c])]⟩

/-! ### Basic facts about the map and the scan loop -/

theorem connsLookup_store_self (m : ConnMap) (a : String) (b : Bucket) :
    connsLookup (connsStore m a b) a = some b := by
  induction m with
  | nil => simp [connsLookup, connsStore]
  | cons kv rest ih =>
    obtain ⟨k, v⟩ := kv
    by_cases hk : k = a
    · simp [connsLookup, connsStore, hk]
    · simp [connsLookup, connsStore, hk, ih]

theorem connsLookup_store_ne (m : ConnMap) (a a' : String) (b : Bucket)
    (h : a ≠ a') : connsLookup (connsStore m a b) a' = connsLookup m a' := by
  induction m with
  | nil => simp [connsLookup, connsStore, h]
  | cons kv rest ih =>
    obtain ⟨k, v⟩ := kv
    by_cases hk : k = a
    · subst hk
      simp [connsLookup, connsStore, h]
    · by_cases hk2 : k = a'
      · simp [connsLookup, connsStore, hk, hk2, Ne.symm h]
      · simp [connsLookup, connsStore, hk, hk2, ih]

theorem bucketOf_store_self (p : pool) (a : String) (b : Bucket) :
    bucketOf { p with conns := connsStore p.conns a b } a = b := by
  simp [bucketOf, connsLookup_store_self]

theorem bucketOf_store_ne (p : pool) (a a' : String) (b : Bucket) (h : a ≠ a') :
    bucketOf { p with conns := connsStore p.conns a b } a' = bucketOf p a' := by
  simp [bucketOf, connsLookup_store_ne _ _ _ _ h]

theorem getLoop_zero (p : pool) (addr : String) (now : Nat) (dial : Except String Client)
    (newId : String) (conns : Bucket) (closed : List poolConn) :
    getLoop p addr now dial newId 0 conns closed = none := rfl

theorem getLoop_nil (p : pool) (addr : String) (now : Nat) (dial : Except String Client)
    (newId : String) (fuel : Nat) (closed : List poolConn) :
    getLoop p addr now dial newId (fuel + 1) [] closed =
      match dial with
      | .error e => some (.err e p closed)
      | .ok rc => some (.ok ⟨rc, newId, now⟩ p closed) := rfl

theorem getLoop_cons (p : pool) (addr : String) (now : Nat) (dial : Except String Client)
    (newId : String) (fuel : Nat) (conn : poolConn) (rest : Bucket)
    (closed : List poolConn) :
    getLoop p addr now dial newId (fuel + 1) (conn :: rest) closed =
      if conn.Remote = addr then
        if now - conn.Created > p.ttl then
          match conn.client.Close with
          | some e =>
            some (.err e { p with conns := connsStore p.conns addr rest } (closed ++ [conn]))
          | none => getLoop p addr now dial newId fuel rest (closed ++ [conn])
        else
          some (.ok conn { p with conns := connsStore p.conns addr rest } closed)
      else
        getLoop p addr now dial newId fuel (Bucket.push rest conn) closed := rfl

/-- Any connection returned by the scan loop is within TTL, and comes either
from the scanned snapshot or from a successful fresh dial stamped with the
supplied id and the current instant. -/
theorem getLoop_ok_spec (p : pool) (addr : String) (now : Nat)
    (dial : Except String Client) (newId : String) :
    ∀ fuel conns closed c st ev,
      getLoop p addr now dial newId fuel conns closed = some (GetRes.ok c st ev) →
      now - c.Created ≤ p.ttl ∧
        (c ∈ conns ∨
          (c.id = newId ∧ c.created = now ∧ ∃ rc, dial = .ok rc ∧ c.client = rc)) := by
  intro fuel
  induction fuel with
  | zero =>
    intro conns closed c st ev h
    simp [getLoop_zero] at h
  | succ n ih =>
    intro conns closed c st ev h
    cases conns with
    | nil =>
      rw [getLoop_nil] at h
      cases dial with
      | error e => simp at h
      | ok rc =>
        simp at h
        obtain ⟨hc, _, _⟩ := h
        subst hc
        refine ⟨by simp [poolConn.Created], Or.inr ⟨rfl, rfl, rc, rfl, rfl⟩⟩
    | cons conn rest =>
      rw [getLoop_cons] at h
      by_cases hr : conn.Remote = addr
      · rw [if_pos hr] at h
        by_cases hexp : now - conn.Created > p.ttl
        · rw [if_pos hexp] at h
          cases hcl : conn.client.Close with
          | some e => rw [hcl] at h; simp at h
          | none =>
            rw [hcl] at h
            obtain ⟨hle, hmem⟩ := ih rest (closed ++ [conn]) c st ev h
            refine ⟨hle, ?_⟩
            rcases hmem with hm | hd
            · exact Or.inl (List.mem_cons_of_mem _ hm)
            · exact Or.inr hd
        · rw [if_neg hexp] at h
          simp at h
          obtain ⟨hc, _, _⟩ := h
          subst hc
          exact ⟨Nat.le_of_not_lt hexp, Or.inl (List.mem_cons_self _ _)⟩
      · rw [if_neg hr] at h
        obtain ⟨hle, hmem⟩ := ih (Bucket.push rest conn) closed c st ev h
        refine ⟨hle, ?_⟩
        rcases hmem with hm | hd
        · simp [Bucket.push] at hm
          rcases hm with hm | hm
          · exact Or.inl (by simp [hm])
          · exact Or.inl (List.mem_cons_of_mem _ hm)
        · exact Or.inr hd

/-- Scanning past a prefix of matching, expired, cleanly-closing records just
pops and closes each of them in order. -/
theorem getLoop_skip_expired (p : pool) (addr : String) (now : Nat)
    (dial : Except String Client) (newId : String) :
    ∀ pre : Bucket,
      (∀ c ∈ pre, c.Remote = addr ∧ p.ttl < now - c.Created ∧ c.client.closeErr = none) →
      ∀ k s closed,
        getLoop p addr now dial newId (pre.length + k) (pre ++ s) closed =
          getLoop p addr now dial newId k s (closed ++ pre) := by
  intro pre
  induction pre with
  | nil => intro _ k s closed; simp
  | cons c pre ih =>
    intro hpre k s closed
    obtain ⟨hr, hexp, hcl⟩ := hpre c (List.mem_cons_self _ _)
    have hstep : (c :: pre).length + k = (pre.length + k) + 1 := by
      simp [List.length_cons]; omega
    rw [hstep, show (c :: pre) ++ s = c :: (pre ++ s) from rfl, getLoop_cons,
      if_pos hr, if_pos hexp]
    have hcl2 : c.client.Close = none := hcl
    rw [hcl2]
    rw [ih (fun d hd => hpre d (List.mem_cons_of_mem _ hd)) k s (closed ++ [c])]
    simp

/-- A record whose remote address differs from the requested one is pushed
back on top and popped again on the next iteration: however much fuel is
supplied, the scan never exits. -/
theorem getLoop_mismatch_diverges (p : pool) (addr : String) (now : Nat)
    (dial : Except String Client) (newId : String) (conn : poolConn)
    (hr : conn.Remote ≠ addr) :
    ∀ fuel rest closed,
      getLoop p addr now dial newId fuel (conn :: rest) closed = none := by
  intro fuel
  induction fuel with
  | zero => intro rest closed; rfl
  | succ n ih =>
    intro rest closed
    rw [getLoop_cons, if_neg hr]
    exact ih rest closed

theorem drainBucket_eq (b : Bucket) :
    ∀ e, drainBucket b e = (b.foldl closeStep e, b) := by
  induction b with
  | nil => intro e; rfl
  | cons c rest ih =>
    intro e
    simp only [drainBucket, List.foldl_cons]
    rw [ih]
    cases hcl : c.client.closeErr <;> simp [closeStep, hcl, Client.Close]

theorem drainAll_eq (m : ConnMap) :
    ∀ e, drainAll m e = ((m.map Prod.snd).flatten.foldl closeStep e,
      (m.map Prod.snd).flatten) := by
  induction m with
  | nil => intro e; rfl
  | cons kv rest ih =>
    intro e
    obtain ⟨k, b⟩ := kv
    simp only [drainAll, List.map_cons, List.flatten_cons, List.foldl_append]
    rw [drainBucket_eq, ih]

/-- Close fully characterized: last-error-wins result, unchanged pool state,
and one Close invocation per pooled record in drain order. -/
theorem close_spec (p : pool) :
    pool.Close p = (lastCloseFailure (allPooled p), p, allPooled p) := by
  simp only [pool.Close, allPooled, lastCloseFailure]
  rw [drainAll_eq]

theorem getLoopNM_cons (p : pool) (addr : String) (now : Nat)
    (dial : Except String Client) (newId : String) (fuel : Nat) (conn : poolConn)
    (rest : Bucket) (closed : List poolConn) :
    getLoopNM p addr now dial newId (fuel + 1) (conn :: rest) closed =
      if now - conn.Created > p.ttl then
        match conn.client.Close with
        | some e =>
          some (.err e { p with conns := connsStore p.conns addr rest } (closed ++ [conn]))
        | none => getLoopNM p addr now dial newId fuel rest (closed ++ [conn])
      else
        some (.ok conn { p with conns := connsStore p.conns addr rest } closed) := rfl

/-- On a snapshot whose records all match the requested address, the scan
behaves exactly as if the defensive mismatch branch were absent. -/
theorem getLoop_eq_getLoopNM (p : pool) (addr : String) (now : Nat)
    (dial : Except String Client) (newId : String) :
    ∀ fuel conns closed, (∀ c ∈ conns, c.Remote = addr) →
      getLoop p addr now dial newId fuel conns closed =
        getLoopNM p addr now dial newId fuel conns closed := by
  intro fuel
  induction fuel with
  | zero => intro conns closed _; rfl
  | succ n ih =>
    intro conns closed hall
    cases conns with
    | nil => rfl
    | cons conn rest =>
      rw [getLoop_cons, getLoopNM_cons, if_pos (hall conn (List.mem_cons_self _ _))]
      have hrest : ∀ c ∈ rest, c.Remote = addr :=
        fun c hc => hall c (List.mem_cons_of_mem _ hc)
      by_cases hexp : now - conn.Created > p.ttl
      · rw [if_pos hexp, if_pos hexp]
        cases hcl : conn.client.Close with
        | some e => rfl
        | none => exact ih rest (closed ++ [conn]) hrest
      · rw [if_neg hexp, if_neg hexp]

/-- Every record read back out of an invariant-satisfying pool's bucket for
an address carries that address as its remote. -/
theorem bucketOf_remote (p : pool) (hp : BucketInv p) (a : String) :
    ∀ c ∈ bucketOf p a, c.Remote = a := by
  intro c hc
  unfold bucketOf at hc
  cases h : connsLookup p.conns a with
  | none => rw [h] at hc; simp at hc
  | some b => rw [h] at hc; exact hp a b h c hc

/-- Writing any bucket of matching records back preserves the invariant. -/
theorem bucketInv_store (p : pool) (a : String) (b : Bucket) (hp : BucketInv p)
    (hb : ∀ c ∈ b, c.Remote = a) :
    BucketInv { p with conns := connsStore p.conns a b } := by
  intro a' b' hl c hc
  by_cases ha : a = a'
  · subst ha
    rw [connsLookup_store_self] at hl
    cases hl
    exact hb c hc
  · rw [connsLookup_store_ne _ _ _ _ ha] at hl
    exact hp a' b' hl c hc

/-- The scan loop only writes matching suffixes of the scanned snapshot back,
so it preserves the bucketing invariant. -/
theorem getLoop_bucketInv (p : pool) (addr : String) (now : Nat)
    (dial : Except String Client) (newId : String) (hp : BucketInv p) :
    ∀ fuel conns closed, (∀ c ∈ conns, c.Remote = addr) →
      ∀ r, getLoop p addr now dial newId fuel conns closed = some r →
        BucketInv r.state := by
  intro fuel
  induction fuel with
  | zero => intro conns closed _ r h; simp [getLoop_zero] at h
  | succ n ih =>
    intro conns closed hall r h
    cases conns with
    | nil =>
      rw [getLoop_nil] at h
      cases dial with
      | error e => cases h; exact hp
      | ok rc => cases h; exact hp
    | cons conn rest =>
      have hrest : ∀ c ∈ rest, c.Remote = addr :=
        fun c hc => hall c (List.mem_cons_of_mem _ hc)
      rw [getLoop_cons, if_pos (hall conn (List.mem_cons_self _ _))] at h
      by_cases hexp : now - conn.Created > p.ttl
      · rw [if_pos hexp] at h
        cases hcl : conn.client.Close with
        | some e =>
          rw [hcl] at h
          cases h
          exact bucketInv_store p addr rest hp hrest
        | none =>
          rw [hcl] at h
          exact ih rest (closed ++ [conn]) hrest r h
      · rw [if_neg hexp] at h
        cases h
        exact bucketInv_store p addr rest hp hrest

/-- Get preserves the bucketing invariant. -/
theorem get_bucketInv (p : pool) (addr : String) (now : Nat)
    (dial : Except String Client) (newId : String) (fuel : Nat) (r : GetRes)
    (hp : BucketInv p) (h : pool.Get p addr now dial newId fuel = some r) :
    BucketInv r.state :=
  getLoop_bucketInv p addr now dial newId hp fuel (bucketOf p addr) []
    (bucketOf_remote p hp addr) r h

/-- Release preserves the bucketing invariant: a connection is only ever
filed under its own remote address. -/
theorem release_bucketInv (p : pool) (conn : Conn) (e : Option String)
    (hp : BucketInv p) : BucketInv (pool.Release p conn e).2.1 := by
  cases conn with
  | foreign r => exact hp
  | pc c =>
    cases e with
    | some e0 => exact hp
    | none =>
      by_cases hfull : (bucketOf p c.Remote).length ≥ p.size
      · simp only [pool.Release, if_pos hfull]
        exact hp
      · simp only [pool.Release, if_neg hfull]
        refine bucketInv_store p c.Remote (Bucket.push (bucketOf p c.Remote) c) hp ?_
        intro d hd
        simp [Bucket.push] at hd
        rcases hd with hd | hd
        · simp [hd]
        · exact bucketOf_remote p hp c.Remote d hd

/-- Every sequentially reachable pool state satisfies the invariant. -/
theorem reachable_bucketInv (p : pool) (h : Reachable p) : BucketInv p := by
  induction h with
  | init size ttl => intro a b hl c hc; simp [newPool, connsLookup] at hl
  | get p addr now dial newId fuel r hp hg ih => exact get_bucketInv p addr now dial newId fuel r ih hg
  | release p conn e hp ih => exact release_bucketInv p conn e ih
  | close p hp ih => exact ih

theorem release_foreign (p : pool) (r : String) (e : Option String) :
    pool.Release p (Conn.foreign r) e = (some "unknown connection type", p, []) := rfl

theorem release_callErr (p : pool) (c : poolConn) (e : String) :
    pool.Release p (Conn.pc c) (some e) = (c.client.Close, p, [c]) := rfl

theorem release_full (p : pool) (c : poolConn)
    (h : (bucketOf p c.Remote).length ≥ p.size) :
    pool.Release p (Conn.pc c) none = (c.client.Close, p, [c]) := by
  simp only [pool.Release]
  rw [if_pos h]

theorem release_push (p : pool) (c : poolConn)
    (h : (bucketOf p c.Remote).length < p.size) :
    pool.Release p (Conn.pc c) none =
      (none,
        { p with conns := connsStore p.conns c.Remote (Bucket.push (bucketOf p c.Remote) c) },
        []) := by
  simp only [pool.Release]
  rw [if_neg (Nat.not_le.mpr h)]

/-- Releasing a sequence that still fits under the capacity pushes every
connection, in order, onto the front of the address's bucket, closing none
and leaving the configured capacity and TTL intact. -/
theorem releaseAll_fill :
    ∀ (cs : List poolConn) (p : pool) (a : String),
      (∀ c ∈ cs, c.Remote = a) →
      (bucketOf p a).length + cs.length ≤ p.size →
      (releaseAll p cs).2 = [] ∧ (releaseAll p cs).1.size = p.size ∧
        (releaseAll p cs).1.ttl = p.ttl ∧
        bucketOf (releaseAll p cs).1 a = cs.reverse ++ bucketOf p a := by
  intro cs
  induction cs with
  | nil => intro p a _ _; exact ⟨rfl, rfl, rfl, by simp [releaseAll]⟩
  | cons c rest ih =>
    intro p a hall hcap
    have hc : c.Remote = a := hall c (List.mem_cons_self _ _)
    have hlt : (bucketOf p c.Remote).length < p.size := by
      rw [hc]
      simp [List.length_cons] at hcap
      omega
    have hrel := release_push p c hlt
    have hb2 : bucketOf (pool.Release p (Conn.pc c) none).2.1 a =
        c :: bucketOf p a := by
      rw [hrel]
      simp only
      rw [← hc, bucketOf_store_self, Bucket.push, hc]
    have hsz : (pool.Release p (Conn.pc c) none).2.1.size = p.size := by rw [hrel]
    have httl : (pool.Release p (Conn.pc c) none).2.1.ttl = p.ttl := by rw [hrel]
    have hcap2 : (bucketOf (pool.Release p (Conn.pc c) none).2.1 a).length +
        rest.length ≤ (pool.Release p (Conn.pc c) none).2.1.size := by
      rw [hb2, hsz]
      simp [List.length_cons] at hcap ⊢
      omega
    have hrest : ∀ d ∈ rest, d.Remote = a :=
      fun d hd => hall d (List.mem_cons_of_mem _ hd)
    obtain ⟨hev, hsz2, httl2, hbf⟩ :=
      ih (pool.Release p (Conn.pc c) none).2.1 a hrest hcap2
    refine ⟨?_, ?_, ?_, ?_⟩
    · simp only [releaseAll]
      rw [hrel] at hev ⊢
      simp [hev]
    · simp only [releaseAll]
      rw [hrel] at hsz2 ⊢
      rw [hsz2, ← hsz, hrel]
    · simp only [releaseAll]
      rw [hrel] at httl2 ⊢
      rw [httl2, ← httl, hrel]
    · simp only [releaseAll]
      rw [hrel] at hbf hb2 ⊢
      rw [hbf, hb2]
      simp

theorem releaseAll_append (xs ys : List poolConn) :
    ∀ p : pool, releaseAll p (xs ++ ys) =
      ((releaseAll (releaseAll p xs).1 ys).1,
        (releaseAll p xs).2 ++ (releaseAll (releaseAll p xs).1 ys).2) := by
  induction xs with
  | nil => intro p; simp [releaseAll]
  | cons x xs ih =>
    intro p
    simp only [List.cons_append, releaseAll]
    rw [show xs.append ys = xs ++ ys from rfl, ih]
    simp [List.append_assoc]

/-- A Get whose bucket holds exactly one matching, fresh record returns that
record and writes the emptied bucket back. -/
theorem get_single_fresh (p : pool) (addr : String) (now : Nat)
    (dial : Except String Client) (newId : String) (c : poolConn)
    (hb : bucketOf p addr = [c]) (hr : c.Remote = addr)
    (hf : ¬ now - c.Created > p.ttl) :
    pool.Get p addr now dial newId 1 =
      some (.ok c { p with conns := connsStore p.conns addr [] } []) := by
  unfold pool.Get
  rw [hb]
  have h2 := getLoop_cons p addr now dial newId 0 c [] []
  rw [if_pos hr, if_neg hf] at h2
  exact h2

/-- The empty pool reads every bucket as empty. -/
theorem bucketOf_newPool (s t : Nat) (a : String) : bucketOf (newPool s t) a = [] := rfl

/-- On a snapshot whose records all match the requested address, one unit of
fuel per record plus one for the exit suffices for the scan to finish. -/
theorem getLoop_isSome_matching (p : pool) (addr : String) (now : Nat)
    (dial : Except String Client) (newId : String) :
    ∀ conns closed, (∀ c ∈ conns, c.Remote = addr) →
      (getLoop p addr now dial newId (conns.length + 1) conns closed).isSome := by
  intro conns
  induction conns with
  | nil => intro closed _; cases dial <;> rfl
  | cons c rest ih =>
    intro closed hall
    have hr := hall c (List.mem_cons_self _ _)
    have hlen : (c :: rest).length + 1 = (rest.length + 1) + 1 := by simp
    rw [hlen, getLoop_cons, if_pos hr]
    by_cases hexp : now - c.Created > p.ttl
    · rw [if_pos hexp]
      cases hcl : c.client.Close with
      | some e => rfl
      | none => exact ih (closed ++ [c]) (fun d hd => hall d (List.mem_cons_of_mem _ hd))
    · rw [if_neg hexp]
      rfl

/-! ### The claims -/

/-- C1: for every pool with TTL t and every Get(address) call, no
ConnectionRecord whose age exceeds t is ever returned to the caller: every
expired record encountered during the scan is closed and discarded before
any record is offered, and if only expired records were pooled a fresh dial
occurs (its outcome, success or error, becoming the call's outcome). -/
theorem c1_no_expired_returned :
    (∀ (p : pool) (addr : String) (now : Nat) (dial : Except String Client)
        (newId : String) (fuel : Nat) (c : poolConn) (st : pool) (ev : List poolConn),
        pool.Get p addr now dial newId fuel = some (GetRes.ok c st ev) →
        now - c.Created ≤ p.ttl) ∧
    (∀ (p : pool) (addr : String) (now : Nat) (dial : Except String Client)
        (newId : String),
        (∀ c ∈ bucketOf p addr,
          c.Remote = addr ∧ p.ttl < now - c.Created ∧ c.client.closeErr = none) →
        pool.Get p addr now dial newId ((bucketOf p addr).length + 1) =
          some (match dial with
            | .error e => GetRes.err e p (bucketOf p addr)
            | .ok rc => GetRes.ok ⟨rc, newId, now⟩ p (bucketOf p addr))) := by
  constructor
  · intro p addr now dial newId fuel c st ev h
    exact (getLoop_ok_spec p addr now dial newId fuel (bucketOf p addr) [] c st ev h).1
  · intro p addr now dial newId hall
    have hskip := getLoop_skip_expired p addr now dial newId (bucketOf p addr) hall 1 [] []
    simp only [List.append_nil, List.nil_append] at hskip
    unfold pool.Get
    rw [hskip]
    cases dial <;> rfl

theorem c1_witness :
    pool.Get c1Pool "a" 6 (Except.error "boom") "nid" 1 =
        some (GetRes.ok c1Conn ⟨2, 10, [("a", [])]⟩ []) ∧
      6 - c1Conn.Created ≤ c1Pool.ttl :=
  ⟨by decide,
    c1_no_expired_returned.1 c1Pool "a" 6 (Except.error "boom") "nid" 1 c1Conn
      ⟨2, 10, [("a", [])]⟩ [] (by decide)⟩

/-- C2: with bucket capacity N, an error-free Release closes the connection
without pooling it when the bucket already holds at least N records and
pushes it otherwise, so a bucket at or under N stays at or under N; and
N+1 error-free Releases of remote-matching connections into a fresh pool
leave exactly N pooled, the last one closed. -/
theorem c2_capacity_enforced :
    (∀ (p : pool) (c : poolConn), (bucketOf p c.Remote).length ≥ p.size →
        pool.Release p (Conn.pc c) none = (c.client.Close, p, [c])) ∧
    (∀ (p : pool) (c : poolConn), (bucketOf p c.Remote).length < p.size →
        pool.Release p (Conn.pc c) none =
          (none, ⟨p.size, p.ttl,
            connsStore p.conns c.Remote (Bucket.push (bucketOf p c.Remote) c)⟩, [])) ∧
    (∀ (p : pool) (c : poolConn), (bucketOf p c.Remote).length ≤ p.size →
        (bucketOf (pool.Release p (Conn.pc c) none).2.1 c.Remote).length ≤ p.size) ∧
    (∀ (N t : Nat) (a : String) (cs : List poolConn), cs.length = N + 1 →
        (∀ c ∈ cs, c.Remote = a) →
        (bucketOf (releaseAll (newPool N t) cs).1 a).length = N ∧
          (releaseAll (newPool N t) cs).2 = cs.drop N) := by
  refine ⟨fun p c h => release_full p c h, fun p c h => release_push p c h, ?_, ?_⟩
  · intro p c h
    by_cases hfull : (bucketOf p c.Remote).length ≥ p.size
    · rw [release_full p c hfull]
      exact h
    · rw [release_push p c (Nat.lt_of_not_le hfull)]
      simp only [bucketOf_store_self, Bucket.push, List.length_cons]
      omega
  · intro N t a cs hlen hall
    obtain ⟨xs, d, hcs, hxs⟩ : ∃ xs d, cs = xs ++ [d] ∧ xs.length = N := by
      have hd : (cs.drop N).length = 1 := by rw [List.length_drop, hlen]; omega
      obtain ⟨u, hu⟩ := List.length_eq_one.mp hd
      refine ⟨cs.take N, u, ?_, ?_⟩
      · conv_lhs => rw [← List.take_append_drop N cs]
        rw [hu]
      · rw [List.length_take, hlen]; omega
    subst hcs
    have hxall : ∀ c ∈ xs, c.Remote = a :=
      fun c hc => hall c (List.mem_append_left _ hc)
    have hdrem : d.Remote = a := hall d (List.mem_append_right _ (by simp))
    have hcap : (bucketOf (newPool N t) a).length + xs.length ≤ (newPool N t).size := by
      rw [bucketOf_newPool, hxs]
      simp [newPool]
    obtain ⟨hev, hsz, httl, hbf⟩ := releaseAll_fill xs (newPool N t) a hxall hcap
    rw [releaseAll_append]
    have hblen : (bucketOf (releaseAll (newPool N t) xs).1 a).length = N := by
      rw [hbf, bucketOf_newPool]
      simp [hxs]
    have hfull : (bucketOf (releaseAll (newPool N t) xs).1 d.Remote).length ≥
        (releaseAll (newPool N t) xs).1.size := by
      rw [hdrem, hblen, hsz]
      simp [newPool]
    have hrel := release_full (releaseAll (newPool N t) xs).1 d hfull
    have hsingle : releaseAll (releaseAll (newPool N t) xs).1 [d] =
        ((releaseAll (newPool N t) xs).1, [d]) := by
      simp only [releaseAll]
      rw [hrel]
      simp
    rw [hsingle]
    refine ⟨hblen, ?_⟩
    rw [hev]
    simp [hxs]

theorem c2_witness :
    (([c2A, c2B] : List poolConn).length = 1 + 1 ∧
        (∀ c ∈ ([c2A, c2B] : List poolConn), c.Remote = "a")) ∧
      (bucketOf (releaseAll (newPool 1 5) [c2A, c2B]).1 "a").length = 1 ∧
        (releaseAll (newPool 1 5) [c2A, c2B]).2 = ([c2A, c2B] : List poolConn).drop 1 :=
  ⟨⟨by decide, by decide⟩,
    c2_capacity_enforced.2.2.2 1 5 "a" [c2A, c2B] (by decide) (by decide)⟩

/-- C3: on an address with empty history and a pool of positive capacity, a
Get dials a fresh connection; after releasing it error-free, the immediately
following Get on that address returns a connection with the same identifier
(LIFO reuse, the supplied dial response being ignored). -/
theorem c3_lifo_reuse (N t now : Nat) (addr newId id2 : String) (rc : Client)
    (dial2 : Except String Client) (hN : 0 < N) (hr : rc.remote = addr) :
    pool.Get (newPool N t) addr now (Except.ok rc) newId 1 =
        some (GetRes.ok ⟨rc, newId, now⟩ (newPool N t) []) ∧
      pool.Release (newPool N t) (Conn.pc ⟨rc, newId, now⟩) none =
        (none, ⟨N, t, [(addr, [⟨rc, newId, now⟩])]⟩, []) ∧
      pool.Get (⟨N, t, [(addr, [⟨rc, newId, now⟩])]⟩ : pool) addr now dial2 id2 1 =
        some (GetRes.ok ⟨rc, newId, now⟩ ⟨N, t, [(addr, [])]⟩ []) ∧
      (⟨rc, newId, now⟩ : poolConn).Id = newId := by
  have hcr : (⟨rc, newId, now⟩ : poolConn).Remote = addr := hr
  refine ⟨rfl, ?_, ?_, rfl⟩
  · have hlt : (bucketOf (newPool N t) (⟨rc, newId, now⟩ : poolConn).Remote).length <
        (newPool N t).size := by
      rw [bucketOf_newPool]
      simpa [newPool] using hN
    rw [release_push _ _ hlt]
    simp [newPool, bucketOf, connsLookup, Bucket.push, connsStore, hcr]
  · have hb : bucketOf (⟨N, t, [(addr, [⟨rc, newId, now⟩])]⟩ : pool) addr =
        [⟨rc, newId, now⟩] := by
      simp [bucketOf, connsLookup]
    have hf : ¬ now - (⟨rc, newId, now⟩ : poolConn).Created > t := by
      simp [poolConn.Created]
    have h3 := get_single_fresh (⟨N, t, [(addr, [⟨rc, newId, now⟩])]⟩ : pool) addr now
      dial2 id2 ⟨rc, newId, now⟩ hb hcr hf
    rw [h3]
    simp [connsStore]

theorem c3_witness :
    ((0 : Nat) < 2 ∧ c3rc.remote = "a") ∧
      pool.Get (newPool 2 7) "a" 3 (Except.ok c3rc) "x" 1 =
          some (GetRes.ok c3c (newPool 2 7) []) ∧
        pool.Release (newPool 2 7) (Conn.pc c3c) none =
          (none, ⟨2, 7, [("a", [c3c])]⟩, []) ∧
        pool.Get (⟨2, 7, [("a", [c3c])]⟩ : pool) "a" 3 (Except.error "e") "y" 1 =
          some (GetRes.ok c3c ⟨2, 7, [("a", [])]⟩ []) ∧
        c3c.Id = "x" :=
  ⟨⟨by decide, by decide⟩,
    c3_lifo_reuse 2 7 3 "a" "x" "y" c3rc (Except.error "e") (by decide) (by decide)⟩

/-- C4: Release of a pool-issued connection with a non-nil call error closes
its underlying transport client and pools nothing, whatever the capacity;
and since Get only hands out records from the requested bucket or a fresh
dial carrying the fresh identifier, a discarded connection that is in no
bucket is never returned by a subsequent Get. -/
theorem c4_errored_release_discards :
    (∀ (p : pool) (c : poolConn) (e : String),
        pool.Release p (Conn.pc c) (some e) = (c.client.Close, p, [c])) ∧
    (∀ (p : pool) (addr : String) (now : Nat) (dial : Except String Client)
        (newId : String) (fuel : Nat) (c' : poolConn) (st : pool) (ev : List poolConn),
        pool.Get p addr now dial newId fuel = some (GetRes.ok c' st ev) →
        c' ∈ bucketOf p addr ∨
          (c'.id = newId ∧ c'.created = now ∧ ∃ rc, dial = .ok rc ∧ c'.client = rc)) ∧
    (∀ (p : pool) (addr : String) (now : Nat) (dial : Except String Client)
        (newId : String) (fuel : Nat) (c c' : poolConn) (st : pool) (ev : List poolConn),
        c ∉ bucketOf p addr → c.id ≠ newId →
        pool.Get p addr now dial newId fuel = some (GetRes.ok c' st ev) → c' ≠ c) := by
  refine ⟨fun p c e => release_callErr p c e, ?_, ?_⟩
  · intro p addr now dial newId fuel c' st ev h
    exact (getLoop_ok_spec p addr now dial newId fuel (bucketOf p addr) [] c' st ev h).2
  · intro p addr now dial newId fuel c c' st ev hmem hid h
    rcases (getLoop_ok_spec p addr now dial newId fuel (bucketOf p addr) [] c' st ev h).2
      with hin | ⟨hfid, _, _⟩
    · intro hcc
      exact hmem (hcc ▸ hin)
    · intro hcc
      exact hid (by rw [← hcc]; exact hfid)

theorem c4_witness :
    (c4dead ∉ bucketOf c4p "a" ∧ c4dead.id ≠ "fresh" ∧
        pool.Get c4p "a" 0 (Except.error "no") "fresh" 1 =
          some (GetRes.ok c4good ⟨1, 5, [("a", [])]⟩ [])) ∧
      c4good ≠ c4dead :=
  ⟨⟨by decide, by decide, by decide⟩,
    c4_errored_release_discards.2.2 c4p "a" 0 (Except.error "no") "fresh" 1 c4dead c4good
      ⟨1, 5, [("a", [])]⟩ [] (by decide) (by decide) (by decide)⟩

/-- C5 (counterexample): Get does not terminate on every finite bucket — on
a bucket holding a record whose remote address differs from the requested
one, the scan pushes the record back onto the top of the stack and pops it
again forever, so no amount of fuel makes the call return. -/
theorem c5_counterexample :
    ¬ GetTerminates c5p "a" 0 (Except.ok ⟨"a", none⟩) "n" := by
  rintro ⟨fuel, hf⟩
  unfold pool.Get at hf
  rw [show bucketOf c5p "a" = [c5mis] by decide] at hf
  rw [getLoop_mismatch_diverges c5p "a" 0 (Except.ok ⟨"a", none⟩) "n" c5mis
    (by decide) fuel [] []] at hf
  simp at hf

/-- C5 (amended): Get terminates — with bucket-length-plus-one loop
iterations — whenever every record in the requested address's bucket carries
that address as its remote; the requeue loop is unbounded only on a
mismatched record, which rescans forever. -/
theorem c5_termination_on_matching_buckets (p : pool) (addr : String)
    (now : Nat) (dial : Except String Client) (newId : String)
    (h : ∀ c ∈ bucketOf p addr, c.Remote = addr) :
    GetTerminates p addr now dial newId :=
  ⟨(bucketOf p addr).length + 1,
    getLoop_isSome_matching p addr now dial newId (bucketOf p addr) [] h⟩

theorem c5_witness :
    (∀ c ∈ bucketOf c5q "a", c.Remote = "a") ∧
      GetTerminates c5q "a" 0 (Except.error "e") "n" :=
  ⟨by decide,
    c5_termination_on_matching_buckets c5q "a" 0 (Except.error "e") "n" (by decide)⟩

/-- C6 (counterexample): Close on a pool holding one connection invokes that
connection's underlying Close, yet the address bucket observable through the
map still contains the record afterwards — the claim that no address bucket
contains any connection after Close fails. -/
theorem c6_counterexample :
    (pool.Close c6p).2.2 = [c6c] ∧ bucketOf (pool.Close c6p).2.1 "a" = [c6c] := by
  decide

/-- C6 (amended): Close invokes the underlying Close of every connection
pooled at call time exactly once, in drain order, and returns the most
recently encountered close failure with earlier failures discarded (nil if
none failed); however the drain pops only snapshot copies of the buckets,
so the pool's map — and hence every address bucket — is unchanged rather
than emptied. -/
theorem c6_close_behaviour :
    (∀ p : pool, pool.Close p = (lastCloseFailure (allPooled p), p, allPooled p)) ∧
    (∀ (p : pool) (c : poolConn), (allPooled p).count c = 1 →
        ((pool.Close p).2.2).count c = 1) := by
  refine ⟨close_spec, ?_⟩
  intro p c hc
  rw [close_spec p]
  exact hc

theorem c6_witness :
    (allPooled c6p).count c6c = 1 ∧ ((pool.Close c6p).2.2).count c6c = 1 :=
  ⟨by decide, c6_close_behaviour.2 c6p c6c (by decide)⟩

/-- C7: Release invoked with a connection value not produced by this pool
returns the "unknown connection type" error, mutates no bucket and closes
nothing. -/
theorem c7_unknown_connection_type (p : pool) (r : String) (e : Option String) :
    pool.Release p (Conn.foreign r) e = (some "unknown connection type", p, []) :=
  release_foreign p r e

/-- C8 (counterexample): a Get that evicts and closes an expired record and
then dials fresh returns with the pool map unchanged — the evicted record is
still in the bucket observable through the map, so the scan's evictions do
not persist on the fresh-dial outcome. -/
theorem c8_counterexample :
    pool.Get c8p "a" 100 (Except.ok ⟨"a", none⟩) "f" 2 =
        some (GetRes.ok ⟨⟨"a", none⟩, "f", 100⟩ c8p [c8old]) ∧
      bucketOf c8p "a" = [c8old] := by
  decide

/-- C8 (amended): a close failure while evicting an expired record aborts
the call with that error and with the shrunk bucket written back, and the
evictions likewise persist when the scan goes on to return a pooled record;
but when the scan exhausts the bucket and falls through to the dial —
fresh dial or dial error — the shrunk snapshot is not written back and the
map keeps the pre-scan bucket. -/
theorem c8_failure_paths :
    (∀ (p : pool) (addr : String) (now : Nat) (dial : Except String Client)
        (newId : String) (pre rest : Bucket) (c : poolConn) (e : String),
        bucketOf p addr = pre ++ c :: rest →
        (∀ d ∈ pre, d.Remote = addr ∧ p.ttl < now - d.Created ∧ d.client.closeErr = none) →
        c.Remote = addr → p.ttl < now - c.Created → c.client.closeErr = some e →
        pool.Get p addr now dial newId (pre.length + 1) =
          some (GetRes.err e ⟨p.size, p.ttl, connsStore p.conns addr rest⟩ (pre ++ [c]))) ∧
    (∀ (p : pool) (addr : String) (now : Nat) (dial : Except String Client)
        (newId : String) (pre rest : Bucket) (c : poolConn),
        bucketOf p addr = pre ++ c :: rest →
        (∀ d ∈ pre, d.Remote = addr ∧ p.ttl < now - d.Created ∧ d.client.closeErr = none) →
        c.Remote = addr → ¬ now - c.Created > p.ttl →
        pool.Get p addr now dial newId (pre.length + 1) =
          some (GetRes.ok c ⟨p.size, p.ttl, connsStore p.conns addr rest⟩ pre)) ∧
    (∀ (p : pool) (addr : String) (now : Nat) (dial : Except String Client)
        (newId : String) (r : GetRes),
        (∀ c ∈ bucketOf p addr,
          c.Remote = addr ∧ p.ttl < now - c.Created ∧ c.client.closeErr = none) →
        pool.Get p addr now dial newId ((bucketOf p addr).length + 1) = some r →
        r.state = p ∧ r.events = bucketOf p addr) := by
  refine ⟨?_, ?_, ?_⟩
  · intro p addr now dial newId pre rest c e hb hpre hr hexp hcl
    unfold pool.Get
    rw [hb]
    have hskip := getLoop_skip_expired p addr now dial newId pre hpre 1 (c :: rest) []
    simp only [List.nil_append] at hskip
    rw [hskip]
    have hcons := getLoop_cons p addr now dial newId 0 c rest pre
    rw [if_pos hr, if_pos hexp] at hcons
    have hc2 : c.client.Close = some e := hcl
    rw [hc2] at hcons
    exact hcons
  · intro p addr now dial newId pre rest c hb hpre hr hfresh
    unfold pool.Get
    rw [hb]
    have hskip := getLoop_skip_expired p addr now dial newId pre hpre 1 (c :: rest) []
    simp only [List.nil_append] at hskip
    rw [hskip]
    have hcons := getLoop_cons p addr now dial newId 0 c rest pre
    rw [if_pos hr, if_neg hfresh] at hcons
    exact hcons
  · intro p addr now dial newId r hall hget
    have hskip := getLoop_skip_expired p addr now dial newId (bucketOf p addr) hall 1 [] []
    simp only [List.append_nil, List.nil_append] at hskip
    unfold pool.Get at hget
    rw [hskip] at hget
    cases dial with
    | error e =>
      rw [show getLoop p addr now (Except.error e) newId 1 [] (bucketOf p addr) =
        some (GetRes.err e p (bucketOf p addr)) from rfl] at hget
      injection hget with h2
      subst h2
      exact ⟨rfl, rfl⟩
    | ok rc =>
      rw [show getLoop p addr now (Except.ok rc) newId 1 [] (bucketOf p addr) =
        some (GetRes.ok ⟨rc, newId, now⟩ p (bucketOf p addr)) from rfl] at hget
      injection hget with h2
      subst h2
      exact ⟨rfl, rfl⟩

theorem c8_witness :
    (bucketOf c8q "a" = [] ++ c8bad :: [] ∧ c8bad.Remote = "a" ∧
        c8q.ttl < 100 - c8bad.Created ∧ c8bad.client.closeErr = some "closefail") ∧
      pool.Get c8q "a" 100 (Except.ok ⟨"a", none⟩) "f" ((List.length ([] : Bucket)) + 1) =
        some (GetRes.err "closefail" ⟨c8q.size, c8q.ttl, connsStore c8q.conns "a" []⟩
          ([] ++ [c8bad])) :=
  ⟨⟨by decide, by decide, by decide, by decide⟩,
    c8_failure_paths.1 c8q "a" 100 (Except.ok ⟨"a", none⟩) "f" [] [] c8bad "closefail"
      (by decide) (by decide) (by decide) (by decide) (by decide)⟩

/-- C9: every pool state reachable by a sequential execution files records
only under their own remote address, and on any pool satisfying that
invariant Get computes exactly what a scan with the defensive mismatch
branch deleted computes: the branch is never taken. -/
theorem c9_mismatch_branch_unreachable :
    (∀ p : pool, Reachable p → BucketInv p) ∧
    (∀ (p : pool) (addr : String) (now : Nat) (dial : Except String Client)
        (newId : String) (fuel : Nat), BucketInv p →
        pool.Get p addr now dial newId fuel = pool.GetNM p addr now dial newId fuel) := by
  refine ⟨reachable_bucketInv, ?_⟩
  intro p addr now dial newId fuel hp
  unfold pool.Get pool.GetNM
  exact getLoop_eq_getLoopNM p addr now dial newId fuel (bucketOf p addr) []
    (bucketOf_remote p hp addr)

theorem c9_witness :
    BucketInv (pool.Release (newPool 2 9) (Conn.pc c9c) none).2.1 :=
  c9_mismatch_branch_unreachable.1 _
    (Reachable.release (newPool 2 9) (Conn.pc c9c) none (Reachable.init 2 9))

/-- C10 (counterexample): after Close has drained (closed) a pooled fresh
record, a Get on that address does not dial a fresh connection: the bucket
was never emptied in the map, so the already-closed record is handed out
again, with an identifier differing from the would-be fresh dial's. -/
theorem c10_counterexample :
    (pool.Close c10p).2.2 = [c10c] ∧
      pool.Get (pool.Close c10p).2.1 "a" 0 (Except.ok ⟨"a", none⟩) "fresh" 1 =
        some (GetRes.ok c10c ⟨1, 100, [("a", [])]⟩ []) ∧
      c10c.Id ≠ "fresh" := by
  decide

/-- C10 (amended): Close leaves the pool state completely unchanged — no
closed flag, no entry removal, buckets intact — so every subsequent Get or
Release computes exactly as on the pre-Close state; on an address whose
bucket is empty, a Get after Close dials a fresh connection and succeeds
when the dial does, while an address still holding an unexpired record
yields that already-closed record again instead of a fresh dial. -/
theorem c10_close_does_not_disable :
    (∀ p : pool, (pool.Close p).2.1 = p) ∧
    (∀ (p : pool) (addr : String) (now : Nat) (dial : Except String Client)
        (newId : String) (fuel : Nat),
        pool.Get (pool.Close p).2.1 addr now dial newId fuel =
          pool.Get p addr now dial newId fuel) ∧
    (∀ (p : pool) (conn : Conn) (e : Option String),
        pool.Release (pool.Close p).2.1 conn e = pool.Release p conn e) ∧
    (∀ (p : pool) (addr : String) (now : Nat) (rc : Client) (newId : String),
        bucketOf p addr = [] →
        pool.Get (pool.Close p).2.1 addr now (Except.ok rc) newId 1 =
          some (GetRes.ok ⟨rc, newId, now⟩ p [])) ∧
    (∀ (p : pool) (addr : String) (now : Nat) (dial : Except String Client)
        (newId : String) (c : poolConn),
        bucketOf p addr = [c] → c.Remote = addr → ¬ now - c.Created > p.ttl →
        pool.Get (pool.Close p).2.1 addr now dial newId 1 =
          some (GetRes.ok c ⟨p.size, p.ttl, connsStore p.conns addr []⟩ [])) := by
  refine ⟨fun p => rfl, fun p addr now dial newId fuel => rfl, fun p conn e => rfl, ?_, ?_⟩
  · intro p addr now rc newId hb
    show pool.Get p addr now (Except.ok rc) newId 1 = _
    unfold pool.Get
    rw [hb]
    rfl
  · intro p addr now dial newId c hb hr hf
    exact get_single_fresh p addr now dial newId c hb hr hf

theorem c10_witness :
    bucketOf c10p "b" = [] ∧
      pool.Get (pool.Close c10p).2.1 "b" 3 (Except.ok ⟨"b", none⟩) "nid" 1 =
        some (GetRes.ok ⟨⟨"b", none⟩, "nid", 3⟩ c10p []) :=
  ⟨by decide, c10_close_does_not_disable.2.2.2.1 c10p "b" 3 ⟨"b", none⟩ "nid" (by decide)⟩
